import Mathlib

/-!
# Chtholly tree (`src/src/lib.rs`) — shallow embedding

The Rust crate stores a `Vec<ChthollyNode>` of runs `[left, right]` (inclusive
bounds) each holding one `value`, kept sorted by `left`.  We model the vector
as a `List ChthollyNode` and each operation of the crate as a Lean function of
the same name.  `usize` is modelled as `Nat`; the only place the crate can hit
unsigned underflow (a panic in debug builds) is subtraction inside `nth`,
`pow_sum` and `ChthollyNode::len`, so those subtractions go through `sub?`,
which returns `none` exactly when the Rust subtraction would underflow.  The
loops of the crate are compiled to structurally recursive functions with an
explicit fuel argument; every call site passes fuel that dominates the number
of iterations the Rust loop can make (arguments are given at each definition),
so the fuel-exhausted branch is unreachable.
-/

namespace Chtholly

/-- `ChthollyNode { left, right, value }` from the crate. -/
structure ChthollyNode where
  left : Nat
  right : Nat
  value : Nat
deriving DecidableEq, Repr, Inhabited

/-- `ChthollyNode::contains`: `self.left <= x && x <= self.right`. -/
def ChthollyNode.contains (n : ChthollyNode) (x : Nat) : Bool :=
  n.left ≤ x && x ≤ n.right

/-- Checked `usize` subtraction: `some (a - b)` when `b ≤ a`, otherwise `none`
(the debug-build panic on unsigned underflow). -/
def sub? (a b : Nat) : Option Nat :=
  if b ≤ a then some (a - b) else none

/-- `ChthollyNode::len`: `self.right - self.left + 1`; `none` when the
subtraction underflows. -/
def ChthollyNode.len (n : ChthollyNode) : Option Nat :=
  (sub? n.right n.left).map (· + 1)

/-- `ChthollyTree(Vec<ChthollyNode>)`; the vector is modelled as a list. -/
abbrev ChthollyTree := List ChthollyNode

/-- `Vec::insert(i, a)`: insert `a` so that it ends up at position `i`.
Every call site of the crate uses `i = index + 1` with `index` a valid
position, so `i ≤ length` and the out-of-range case is unreachable. -/
def insertAt : List ChthollyNode → Nat → ChthollyNode → List ChthollyNode
  | xs, 0, a => a :: xs
  | [], _ + 1, a => [a]
  | x :: xs, n + 1, a => x :: insertAt xs n a

/-- `Vec::remove(i)` (ignoring the removed value). -/
def removeAt : List ChthollyNode → Nat → List ChthollyNode
  | [], _ => []
  | _ :: xs, 0 => xs
  | x :: xs, n + 1 => x :: removeAt xs n

/-- `self.0[i] = a`: overwrite position `i`. -/
def setAt : List ChthollyNode → Nat → ChthollyNode → List ChthollyNode
  | [], _, _ => []
  | _ :: xs, 0, a => a :: xs
  | x :: xs, n + 1, a => x :: setAt xs n a

/-- The loop of `core`'s `slice::binary_search_by` (the `base`/`size` halving
loop), specialised to the comparator `|node| node.left.cmp(&target)` that every
call in the crate uses.  The fuel is the initial `size`; each iteration
shrinks `size` by `half ≥ 1`, so fuel never runs out at the call site. -/
def bsearchGo : Nat → ChthollyTree → Nat → Nat → Nat → Nat
  | 0, _, _, base, _ => base
  | fuel + 1, t, target, base, size =>
    if 1 < size then
      let half := size / 2
      let mid := base + half
      if target < (t.getD mid default).left then
        bsearchGo fuel t target base (size - half)
      else
        bsearchGo fuel t target mid (size - half)
    else base

/-- `self.0.binary_search_by(|node| node.left.cmp(&target))`:
`.ok i` models `Ok(i)` (some node has `left = target`), `.error i` models
`Err(i)` (the insertion point keeping the vector sorted). -/
def binarySearchLeft (t : ChthollyTree) (target : Nat) : Except Nat Nat :=
  if t.length = 0 then .error 0
  else
    let base := bsearchGo t.length t target 0 t.length
    let key := (t.getD base default).left
    if key = target then .ok base
    else if key < target then .error (base + 1)
    else .error base

/-- The `match` every operation of the crate performs on the search result:
`Ok(index) => index`, `Err(index) => if index > 0 { index - 1 } else return`.
The early return (no node has `left ≤ target`) is modelled as `none`. -/
def locate (t : ChthollyTree) (target : Nat) : Option Nat :=
  match binarySearchLeft t target with
  | .ok index => some index
  | .error index => if 0 < index then some (index - 1) else none

/-- `ChthollyTree::from_slice`: one node `⟨i, i, data[i]⟩` per element. -/
def from_slice (data : List Nat) : ChthollyTree :=
  data.enum.map fun p => ⟨p.1, p.1, p.2⟩

/-- `ChthollyTree::split_inner`.  Besides the returned `Option<usize>` we
return the updated vector (the Rust method mutates `self`).  Note the source
inserts the new node at `index + 1` first and then performs
`self.0[index].right = middle` (not `middle - 1`). -/
def split_inner (t : ChthollyTree) (middle : Nat) : Option Nat × ChthollyTree :=
  match locate t middle with
  | none => (none, t)
  | some index =>
    let node := t.getD index default
    if node.left = middle then (some index, t)
    else
      (some (index + 1),
        setAt (insertAt t (index + 1) ⟨middle, node.right, node.value⟩)
          index ⟨node.left, middle, node.value⟩)

/-- `ChthollyTree::split`: like `split_inner` but returning the node at the
returned index instead of the index. -/
def split (t : ChthollyTree) (middle : Nat) : Option ChthollyNode × ChthollyTree :=
  match split_inner t middle with
  | (some index, t') => (some (t'.getD index default), t')
  | (none, t') => (none, t')

/-- The `while index + 1 < self.0.len() && self.0[index + 1].left <= right`
removal loop of `merge`.  Each iteration removes one element, so fuel
`t.length` suffices. -/
def removeWhile : Nat → ChthollyTree → Nat → Nat → ChthollyTree
  | 0, t, _, _ => t
  | fuel + 1, t, index, right =>
    if index + 1 < t.length ∧ (t.getD (index + 1) default).left ≤ right then
      removeWhile fuel (removeAt t (index + 1)) index right
    else t

/-- Insertion sort by `left`, modelling `sort_unstable_by_key(|node| node.left)`
in `sort_inner`.  All states the crate sorts have pairwise distinct `left`
fields, for which every comparison sort agrees. -/
def insertByLeft (n : ChthollyNode) : ChthollyTree → ChthollyTree
  | [] => [n]
  | m :: rest => if n.left ≤ m.left then n :: m :: rest else m :: insertByLeft n rest

/-- `ChthollyTree::sort_inner`. -/
def sort_inner (t : ChthollyTree) : ChthollyTree :=
  t.foldr insertByLeft []

/-- `ChthollyTree::merge` (the crate's name for range assign). -/
def merge (t : ChthollyTree) (left right value : Nat) : ChthollyTree :=
  let t1 := (split_inner t right).2
  match split_inner t1 left with
  | (some index, t2) =>
    let node := t2.getD index default
    removeWhile t2.length (setAt t2 index ⟨node.left, right, value⟩) index right
  | (none, t2) => sort_inner (t2 ++ [⟨left, right, value⟩])

/-- The `for index in start..len` loop of `add`: adds `value` to every node
until one with `left > right` is met.  Fuel `t.length` dominates the
remaining iterations. -/
def addGo : Nat → ChthollyTree → Nat → Nat → Nat → ChthollyTree
  | 0, t, _, _, _ => t
  | fuel + 1, t, right, value, index =>
    if index < t.length then
      let node := t.getD index default
      if node.left > right then t
      else addGo fuel (setAt t index ⟨node.left, node.right, node.value + value⟩) right value (index + 1)
    else t

/-- `ChthollyTree::add`. -/
def add (t : ChthollyTree) (left right value : Nat) : ChthollyTree :=
  let t1 := (split_inner t right).2
  match split_inner t1 left with
  | (some start, t2) => addGo t2.length t2 right value start
  | (none, t2) => t2

/-- The walking loop of `nth`.  The outer `none` is the debug-build panic
(underflow in `self.0[index].right - max(left, self.0[index].left)`);
`some none`/`some (some v)` are the Rust `None`/`Some(v)`.  Each iteration
decreases `x` by `len ≥ 1`, so fuel `x + 1` dominates the iteration count. -/
def nthGo : Nat → ChthollyTree → Nat → Nat → Nat → Option (Option Nat)
  | 0, _, _, _, _ => none
  | fuel + 1, t, left, x, index =>
    if x = 0 then some (some (t.getD index default).value)
    else
      match sub? (t.getD index default).right (max left (t.getD index default).left) with
      | none => none
      | some d =>
        let len := d + 1
        if x < len then some (some (t.getD index default).value)
        else if t.length ≤ index + 1 then some none
        else nthGo fuel t left (x - len) (index + 1)

/-- `ChthollyTree::nth`. -/
def nth (t : ChthollyTree) (left x : Nat) : Option (Option Nat) :=
  match locate t left with
  | some index => nthGo (x + 1) t left x index
  | none => some none

/-- The accumulation loop of `pow_sum`; `none` is the debug-build panic
(underflow in `right - left` after clamping).  The index grows towards
`t.length`, so fuel `t.length + 1` dominates the iteration count. -/
def powSumGo : Nat → ChthollyTree → Nat → Nat → Nat → Nat → Nat → Nat → Option Nat
  | 0, _, _, _, _, _, _, sum => some sum
  | fuel + 1, t, left, right, power, modulo, index, sum =>
    if t.length ≤ index ∨ right < (t.getD index default).left then some sum
    else
      let node := t.getD index default
      let l := max left node.left
      let r := min right node.right
      match sub? r l with
      | none => none
      | some d =>
        powSumGo fuel t left right power modulo (index + 1)
          ((sum + (d + 1) * (node.value ^ power % modulo)) % modulo)

/-- `ChthollyTree::pow_sum`. -/
def pow_sum (t : ChthollyTree) (left right power modulo : Nat) : Option Nat :=
  match locate t left with
  | some index => powSumGo (t.length + 1) t left right power modulo index 0
  | none => some 0

/-! ## Reference model (spec §8, differential equivalence)

Modelled from the spec's words: a plain array receiving the same `assign` and
`add` edits index-by-index, queried directly. -/

/-- Index-by-index `assign` on the reference array. -/
def refAssign (arr : List Nat) (left right value : Nat) : List Nat :=
  arr.enum.map fun p => if left ≤ p.1 ∧ p.1 ≤ right then value else p.2

/-- Index-by-index `add` on the reference array. -/
def refAdd (arr : List Nat) (left right value : Nat) : List Nat :=
  arr.enum.map fun p => if left ≤ p.1 ∧ p.1 ≤ right then p.2 + value else p.2

/-- The `x`-th (0-indexed) smallest-index element at or after index `left`. -/
def refNth (arr : List Nat) (left x : Nat) : Option Nat :=
  (arr.drop left).get? x

/-- `Σ_{i = left}^{right} (arr[i]^power mod modulo) mod modulo`. -/
def refPowSum (arr : List Nat) (left right power modulo : Nat) : Nat :=
  (((List.range' left (right + 1 - left)).map
    fun i => arr.getD i 0 ^ power % modulo).sum) % modulo

/-! ## Invariant vocabulary -/

/-- The number of nodes whose `left` is at most `m`.  On a tree whose `left`
fields are strictly increasing, the candidate node every operation locates
via binary search is the one at position `countLe t m - 1`. -/
def countLe (t : ChthollyTree) (m : Nat) : Nat :=
  t.countP fun nd => decide (nd.left ≤ m)

/-- Spec invariant 1: the nodes are strictly sorted by `left`.  Every tree
reachable through the crate's API satisfies it. -/
def SortedLefts (t : ChthollyTree) : Prop :=
  List.Pairwise (fun a b : ChthollyNode => a.left < b.left) t

instance (t : ChthollyTree) : Decidable (SortedLefts t) :=
  inferInstanceAs (Decidable (List.Pairwise _ t))

/-! ## Concrete states used for counterexamples

All of them are reached from `from_slice` (or the empty tree) by calls whose
indices are inside the constructed domain and have `left ≤ right`. -/

/-- `from_slice([5,6])`, then `merge(0,1,7)`, then `add(1,1,1)`: the state is
`[⟨0,1,7⟩, ⟨1,1,8⟩]` whereas the reference array is `[7, 8]`. -/
def overlapTree : ChthollyTree :=
  add (merge (from_slice [5, 6]) 0 1 7) 1 1 1

/-- The reference array after the same edits as `overlapTree`. -/
def overlapArr : List Nat :=
  refAdd (refAssign [5, 6] 0 1 7) 1 1 1

/-- `from_slice([1,2,3])`, then `merge(0,1,4)`, then `merge(0,0,5)`:
the state is `[⟨0,0,5⟩, ⟨2,2,3⟩]` — index 1 is no longer covered. -/
def gapTree : ChthollyTree :=
  merge (merge (from_slice [1, 2, 3]) 0 1 4) 0 0 5

/-- A reachable tree whose single run starts after index 0 (it equals
`merge([], 2, 3, 5)`, i.e. assigning on an empty tree); used to exercise
`add` when `left` precedes every run. -/
def laterRun : ChthollyTree := [⟨2, 3, 5⟩]

/-- A sorted one-run tree used to instantiate the general theorems. -/
def oneRun : ChthollyTree := [⟨0, 0, 5⟩]

/-- A sorted tree with one three-index run, used to instantiate split
idempotence. -/
def wideRun : ChthollyTree := [⟨0, 2, 5⟩]

/-! ## Lemmas about the vector primitives -/

theorem length_setAt (t : ChthollyTree) (i : Nat) (a : ChthollyNode) :
    (setAt t i a).length = t.length := by
  induction t generalizing i with
  | nil => rfl
  | cons x xs ih =>
    cases i with
    | zero => rfl
    | succ n => simp [setAt, ih]

theorem mem_setAt {t : ChthollyTree} {i : Nat} {a x : ChthollyNode}
    (h : x ∈ setAt t i a) : x = a ∨ x ∈ t := by
  induction t generalizing i with
  | nil => simp [setAt] at h
  | cons y ys ih =>
    cases i with
    | zero =>
      rcases List.mem_cons.mp h with h | h
      · exact Or.inl h
      · exact Or.inr (List.mem_cons_of_mem _ h)
    | succ n =>
      rcases List.mem_cons.mp h with h | h
      · exact Or.inr (h ▸ List.mem_cons_self _ _)
      · rcases ih h with h | h
        · exact Or.inl h
        · exact Or.inr (List.mem_cons_of_mem _ h)

theorem mem_insertAt {t : ChthollyTree} {i : Nat} {a x : ChthollyNode}
    (h : x ∈ insertAt t i a) : x = a ∨ x ∈ t := by
  induction t generalizing i with
  | nil =>
    cases i with
    | zero => simpa [insertAt] using h
    | succ n => simpa [insertAt] using h
  | cons y ys ih =>
    cases i with
    | zero =>
      rcases List.mem_cons.mp h with h | h
      · exact Or.inl h
      · exact Or.inr h
    | succ n =>
      rcases List.mem_cons.mp h with h | h
      · exact Or.inr (h ▸ List.mem_cons_self _ _)
      · rcases ih h with h | h
        · exact Or.inl h
        · exact Or.inr (List.mem_cons_of_mem _ h)

theorem insertAt_eq_take_drop (t : ChthollyTree) (i : Nat) (a : ChthollyNode)
    (h : i ≤ t.length) : insertAt t i a = t.take i ++ a :: t.drop i := by
  induction t generalizing i with
  | nil =>
    have : i = 0 := by simpa using h
    subst this; rfl
  | cons x xs ih =>
    cases i with
    | zero => rfl
    | succ n =>
      simp only [insertAt, List.take, List.drop, List.cons_append, List.cons.injEq, true_and]
      exact ih n (by simpa using h)

theorem setAt_append_right (l₁ l₂ : ChthollyTree) (i : Nat) (a : ChthollyNode)
    (h : l₁.length ≤ i) : setAt (l₁ ++ l₂) i a = l₁ ++ setAt l₂ (i - l₁.length) a := by
  induction l₁ generalizing i with
  | nil => simp
  | cons x xs ih =>
    cases i with
    | zero => simp at h
    | succ n =>
      simp only [List.cons_append, setAt, List.length_cons, Nat.succ_sub_succ]
      exact congrArg (x :: ·) (ih n (by simpa using h))

theorem getD_append_add (l₁ l₂ : ChthollyTree) (k : Nat) (d : ChthollyNode) :
    (l₁ ++ l₂).getD (l₁.length + k) d = l₂.getD k d := by
  induction l₁ with
  | nil => simp
  | cons x xs ih =>
    simpa [List.getD_cons_succ, Nat.succ_add] using ih

theorem take_succ_getD {t : ChthollyTree} {i : Nat} (h : i < t.length) (d : ChthollyNode) :
    t.take (i + 1) = t.take i ++ [t.getD i d] := by
  induction t generalizing i with
  | nil => simp at h
  | cons x xs ih =>
    cases i with
    | zero => simp
    | succ n =>
      simp only [List.take, List.getD_cons_succ, List.cons_append]
      exact congrArg (x :: ·) (ih (by simpa using h))

theorem drop_eq_getD_cons {t : ChthollyTree} {i : Nat} (h : i < t.length) (d : ChthollyNode) :
    t.drop i = t.getD i d :: t.drop (i + 1) := by
  induction t generalizing i with
  | nil => simp at h
  | cons x xs ih =>
    cases i with
    | zero => rfl
    | succ n => simpa using ih (by simpa using h)

/-! ## The binary search on trees sorted by `left` -/

theorem bsearchGo_all_gt {t : ChthollyTree} {m : Nat}
    (hall : ∀ i (h : i < t.length), m < (t.get ⟨i, h⟩).left) :
    ∀ fuel size base, base + size ≤ t.length → bsearchGo fuel t m base size = base := by
  intro fuel
  induction fuel with
  | zero => intro size base _; rfl
  | succ fuel ih =>
    intro size base hle
    by_cases hsz : 1 < size
    · have hmid : base + size / 2 < t.length := by omega
      have hgt : m < (t.getD (base + size / 2) default).left := by
        rw [List.getD_eq_get _ _ hmid]; exact hall _ hmid
      simp only [bsearchGo, if_pos hsz, if_pos hgt]
      exact ih (size - size / 2) base (by omega)
    · simp [bsearchGo, hsz]

theorem bsearchGo_lt_length {t : ChthollyTree} {m : Nat} :
    ∀ fuel size base, 0 < size → base + size ≤ t.length →
      bsearchGo fuel t m base size < t.length := by
  intro fuel
  induction fuel with
  | zero => intro size base h1 h2; simpa [bsearchGo] using by omega
  | succ fuel ih =>
    intro size base h1 h2
    by_cases hsz : 1 < size
    · by_cases hgt : m < (t.getD (base + size / 2) default).left
      · simp only [bsearchGo, if_pos hsz, if_pos hgt]
        exact ih (size - size / 2) base (by omega) (by omega)
      · simp only [bsearchGo, if_pos hsz, if_neg hgt]
        exact ih (size - size / 2) (base + size / 2) (by omega) (by omega)
    · simpa [bsearchGo, hsz] using by omega

theorem bsearchGo_bridge {t : ChthollyTree} {m c : Nat}
    (hb : ∀ i (h : i < t.length), ((t.get ⟨i, h⟩).left ≤ m ↔ i < c)) (hc : 0 < c) :
    ∀ fuel size base, size ≤ fuel → 0 < size → base + size ≤ t.length →
      base ≤ c - 1 → c - 1 < base + size → bsearchGo fuel t m base size = c - 1 := by
  intro fuel
  induction fuel with
  | zero => intro size base h1 h2 _ _ _; omega
  | succ fuel ih =>
    intro size base hfuel hpos hlen hlo hhi
    by_cases hsz : 1 < size
    · have hmid : base + size / 2 < t.length := by omega
      by_cases hgt : m < (t.getD (base + size / 2) default).left
      · have hcmid : ¬ base + size / 2 < c := by
          intro hlt
          have hle := (hb _ hmid).mpr hlt
          rw [List.getD_eq_get _ _ hmid] at hgt
          omega
        simp only [bsearchGo, if_pos hsz, if_pos hgt]
        exact ih (size - size / 2) base (by omega) (by omega) (by omega) hlo (by omega)
      · have hle : (t.getD (base + size / 2) default).left ≤ m := by omega
        rw [List.getD_eq_get _ _ hmid] at hle
        have hcmid : base + size / 2 < c := (hb _ hmid).mp hle
        simp only [bsearchGo, if_pos hsz, if_neg hgt]
        exact ih (size - size / 2) (base + size / 2) (by omega) (by omega) (by omega)
          (by omega) (by omega)
    · simpa [bsearchGo, hsz] using by omega

theorem countLe_le_length (t : ChthollyTree) (m : Nat) : countLe t m ≤ t.length :=
  List.countP_le_length _

/-- On a tree with strictly increasing `left` fields, a node's `left` is at
most `m` exactly when its position is below `countLe t m`. -/
theorem sortedLefts_le_iff {t : ChthollyTree} (hs : SortedLefts t) (m : Nat) :
    ∀ i (h : i < t.length), ((t.get ⟨i, h⟩).left ≤ m ↔ i < countLe t m) := by
  induction t with
  | nil => intro i h; simp at h
  | cons nd rest ih =>
    rw [SortedLefts, List.pairwise_cons] at hs
    obtain ⟨hhead, htail⟩ := hs
    intro i h
    by_cases hnd : nd.left ≤ m
    · have hcount : countLe (nd :: rest) m = countLe rest m + 1 := by
        simp [countLe, List.countP_cons, hnd]
      cases i with
      | zero => simp [hcount, List.get, hnd]
      | succ j =>
        have hj : j < rest.length := by simpa using h
        have hres := ih htail j hj
        simp only [List.get, hcount]
        omega
    · have hz : countLe rest m = 0 := by
        rw [countLe, List.countP_eq_zero]
        intro a ha
        simp only [decide_eq_true_eq]
        have := hhead a ha
        omega
      have hcount : countLe (nd :: rest) m = 0 := by
        simp [countLe, List.countP_cons, hnd]
        simpa [countLe] using hz
      cases i with
      | zero => simp [hcount, List.get, hnd]
      | succ j =>
        have hj : j < rest.length := by simpa using h
        have hmem : rest.get ⟨j, hj⟩ ∈ rest := List.get_mem _ _ _
        have := hhead _ hmem
        simp only [List.get, hcount]
        omega

/-- When `m` precedes every node's `left`, the search's `Err(0)` path makes
every operation bail out: `locate` is `none`. -/
theorem locate_none_of_all_gt {t : ChthollyTree} {m : Nat}
    (hall : ∀ nd ∈ t, m < nd.left) : locate t m = none := by
  by_cases h0 : t.length = 0
  · simp [locate, binarySearchLeft, h0]
  · have hget : ∀ i (h : i < t.length), m < (t.get ⟨i, h⟩).left :=
      fun i h => hall _ (List.get_mem _ _ _)
    have hpos : 0 < t.length := Nat.pos_of_ne_zero h0
    have hbase : bsearchGo t.length t m 0 t.length = 0 :=
      bsearchGo_all_gt hget _ _ _ (by omega)
    have hkey : m < (t.getD 0 default).left := by
      rw [List.getD_eq_get _ _ hpos]; exact hget 0 hpos
    rw [locate, binarySearchLeft]
    simp only [h0, if_false, hbase]
    rw [if_neg (by omega), if_neg (by omega)]
    rfl

/-- On a sorted tree with at least one node at or before `m`, `locate` finds
the node with the greatest `left ≤ m`, which sits at `countLe t m - 1`. -/
theorem locate_of_countLe_pos {t : ChthollyTree} {m : Nat} (hs : SortedLefts t)
    (hc : 0 < countLe t m) : locate t m = some (countLe t m - 1) := by
  have hclen : countLe t m ≤ t.length := countLe_le_length t m
  have h0 : ¬ t.length = 0 := by omega
  have hb := sortedLefts_le_iff hs m
  have hbase : bsearchGo t.length t m 0 t.length = countLe t m - 1 :=
    bsearchGo_bridge hb hc _ _ _ le_rfl (by omega) (by omega) (by omega) (by omega)
  have hlt : countLe t m - 1 < t.length := by omega
  have hkey : (t.getD (countLe t m - 1) default).left ≤ m := by
    rw [List.getD_eq_get _ _ hlt]; exact (hb _ hlt).mpr (by omega)
  rw [locate, binarySearchLeft]
  simp only [h0, if_false, hbase]
  by_cases heq : (t.getD (countLe t m - 1) default).left = m
  · rw [if_pos heq]
  · have hkeylt : (t.getD (countLe t m - 1) default).left < m := by omega
    rw [if_neg heq, if_pos hkeylt]
    simp

/-- Any index `locate` produces addresses an actual node of the vector. -/
theorem locate_lt_length {t : ChthollyTree} {m i : Nat} (h : locate t m = some i) :
    i < t.length := by
  by_cases h0 : t.length = 0
  · rw [locate, binarySearchLeft] at h
    simp [h0] at h
  · have hpos : 0 < t.length := Nat.pos_of_ne_zero h0
    have hbase : bsearchGo t.length t m 0 t.length < t.length :=
      bsearchGo_lt_length _ _ _ hpos (by omega)
    rw [locate, binarySearchLeft] at h
    simp only [h0, if_false] at h
    split_ifs at h <;> simp at h <;> omega

/-! ## `split_inner` case equations -/

theorem split_inner_of_locate_none {t : ChthollyTree} {m : Nat}
    (hl : locate t m = none) : split_inner t m = (none, t) := by
  rw [split_inner, hl]

theorem split_inner_of_left_eq {t : ChthollyTree} {m index : Nat}
    (hl : locate t m = some index) (heq : (t.getD index default).left = m) :
    split_inner t m = (some index, t) := by
  rw [split_inner, hl]
  show (if (t.getD index default).left = m then ((some index : Option Nat), t)
    else (some (index + 1),
      setAt (insertAt t (index + 1)
          ⟨m, (t.getD index default).right, (t.getD index default).value⟩)
        index ⟨(t.getD index default).left, m, (t.getD index default).value⟩)) = (some index, t)
  rw [if_pos heq]

theorem split_inner_of_left_ne {t : ChthollyTree} {m index : Nat}
    (hl : locate t m = some index) (hne : (t.getD index default).left ≠ m) :
    split_inner t m = (some (index + 1),
      setAt (insertAt t (index + 1)
          ⟨m, (t.getD index default).right, (t.getD index default).value⟩)
        index ⟨(t.getD index default).left, m, (t.getD index default).value⟩) := by
  rw [split_inner, hl]
  show (if (t.getD index default).left = m then ((some index : Option Nat), t)
    else (some (index + 1),
      setAt (insertAt t (index + 1)
          ⟨m, (t.getD index default).right, (t.getD index default).value⟩)
        index ⟨(t.getD index default).left, m, (t.getD index default).value⟩)) = _
  rw [if_neg hne]

/-- Every node of the vector after `split_inner t m` has a `left` that is `m`
or the `left` of a node of `t`. -/
theorem left_mem_split_inner {t : ChthollyTree} {m : Nat} {x : ChthollyNode}
    (h : x ∈ (split_inner t m).2) : x.left = m ∨ ∃ nd ∈ t, x.left = nd.left := by
  cases hl : locate t m with
  | none =>
    rw [split_inner_of_locate_none hl] at h
    exact Or.inr ⟨x, h, rfl⟩
  | some index =>
    by_cases heq : (t.getD index default).left = m
    · rw [split_inner_of_left_eq hl heq] at h
      exact Or.inr ⟨x, h, rfl⟩
    · rw [split_inner_of_left_ne hl heq] at h
      simp only at h
      rcases mem_setAt h with h | h
      · right
        refine ⟨t.getD index default, ?_, by rw [h]⟩
        rw [List.getD_eq_get _ _ (locate_lt_length hl)]
        exact List.get_mem _ _ _
      · rcases mem_insertAt h with h | h
        · left; rw [h]
        · exact Or.inr ⟨x, h, rfl⟩

/-- The state `split_inner` produces in its splitting case — the candidate
`nd` replaced by `⟨nd.left, m, nd.value⟩` followed by `⟨m, nd.right, nd.value⟩`
— is a fixed point of `split_inner _ m`: the second search finds the node
starting exactly at `m` and returns without mutating. -/
theorem sorted_mid_insert_fix {pre post : ChthollyTree} {nd : ChthollyNode} {m : Nat}
    (hsorted : SortedLefts (pre ++ nd :: post))
    (hA : nd.left < m) (hB : ∀ x ∈ post, m < x.left) :
    (split_inner (pre ++ ⟨nd.left, m, nd.value⟩ :: ⟨m, nd.right, nd.value⟩ :: post) m).2
      = pre ++ ⟨nd.left, m, nd.value⟩ :: ⟨m, nd.right, nd.value⟩ :: post := by
  rw [SortedLefts, List.pairwise_append, List.pairwise_cons] at hsorted
  obtain ⟨hP1, ⟨hnd_lt, hPpost⟩, hcross⟩ := hsorted
  have hpre_lt : ∀ a ∈ pre, a.left < m := fun a ha =>
    lt_trans (hcross a ha nd (List.mem_cons_self _ _)) hA
  have hsorted1 : SortedLefts
      (pre ++ ⟨nd.left, m, nd.value⟩ :: ⟨m, nd.right, nd.value⟩ :: post) := by
    rw [SortedLefts, List.pairwise_append]
    refine ⟨hP1, ?_, ?_⟩
    · rw [List.pairwise_cons]
      refine ⟨?_, ?_⟩
      · intro y hy
        rcases List.mem_cons.mp hy with rfl | hy
        · exact hA
        · exact hnd_lt y hy
      · rw [List.pairwise_cons]
        exact ⟨hB, hPpost⟩
    · intro a ha y hy
      have hand : a.left < nd.left := hcross a ha nd (List.mem_cons_self _ _)
      rcases List.mem_cons.mp hy with rfl | hy
      · exact hand
      · rcases List.mem_cons.mp hy with rfl | hy
        · show a.left < m
          omega
        · exact hcross a ha y (List.mem_cons_of_mem _ hy)
  have hcpre : pre.countP (fun x => decide (x.left ≤ m)) = pre.length := by
    rw [List.countP_eq_length]
    intro a ha
    simp only [decide_eq_true_eq]
    exact le_of_lt (hpre_lt a ha)
  have hpostz : post.countP (fun x => decide (x.left ≤ m)) = 0 := by
    rw [List.countP_eq_zero]
    intro a ha
    simp only [decide_eq_true_eq]
    have := hB a ha
    omega
  have hcL : countLe (pre ++ ⟨nd.left, m, nd.value⟩ :: ⟨m, nd.right, nd.value⟩ :: post) m
      = pre.length + 2 := by
    rw [countLe, List.countP_append, List.countP_cons, List.countP_cons, hcpre, hpostz]
    simp [le_of_lt hA]
  have hloc : locate (pre ++ ⟨nd.left, m, nd.value⟩ :: ⟨m, nd.right, nd.value⟩ :: post) m
      = some (pre.length + 1) := by
    have h2 := locate_of_countLe_pos hsorted1 (by rw [hcL]; omega)
    rw [hcL] at h2
    simpa using h2
  have hget : ((pre ++ ⟨nd.left, m, nd.value⟩ :: ⟨m, nd.right, nd.value⟩ :: post)).getD
      (pre.length + 1) default = ⟨m, nd.right, nd.value⟩ := by
    rw [getD_append_add]
    rfl
  rw [split_inner_of_left_eq hloc (by rw [hget])]

/-! ## Claim theorems (concrete divergences) -/

/-- **C1.** The differential-equivalence contract fails: starting from
`from_slice([5,6])` and applying the in-domain edits `assign(0,1,7)` then
`add(1,1,1)`, the reference array is `[7,8]`, yet `nth(0,1)` on the tree
returns `Some 7` where the array's element at index 1 is `8`, and
`pow_sum(0,1,1,100)` returns `22` where the array gives `15`.  The root cause
is `split_inner` setting the left fragment's `right` to `middle` instead of
`middle - 1`, contradicting its own doc comment, so the index `middle` is
double-counted. -/
theorem nth_powSum_differential_bug :
    nth overlapTree 0 1 = some (some 7) ∧ refNth overlapArr 0 1 = some 8 ∧
    pow_sum overlapTree 0 1 1 100 = some 22 ∧ refPowSum overlapArr 0 1 1 100 = 15 := by
  decide

/-- **C2.** The no-overlap invariant fails: after the in-domain sequence
`from_slice([5,6]); merge(0,1,7); add(1,1,1)` the run sequence is
`[⟨0,1,7⟩, ⟨1,1,8⟩]`, whose adjacent runs violate `runs[0].right < runs[1].left`
(both runs contain index 1). -/
theorem runs_overlap_after_ops :
    overlapTree = [⟨0, 1, 7⟩, ⟨1, 1, 8⟩] ∧
    ¬ (overlapTree.getD 0 default).right < (overlapTree.getD 1 default).left := by
  decide

/-- **C3.** `split(1)` on the single run `[0,1] = 7` (built by
`from_slice([5,6]); merge(0,1,7)`) produces `[⟨0,1,7⟩, ⟨1,1,7⟩]`, not the
claimed `[⟨0,0,7⟩, ⟨1,1,7⟩]`: the left fragment keeps `right = middle`
(`self.0[index].right = middle` in the source), contradicting the doc comment
`[left, middle - 1]`. -/
theorem split_keeps_middle_in_left_run :
    merge (from_slice [5, 6]) 0 1 7 = [⟨0, 1, 7⟩] ∧
    split_inner (merge (from_slice [5, 6]) 0 1 7) 1 = (some 1, [⟨0, 1, 7⟩, ⟨1, 1, 7⟩]) ∧
    (split_inner (merge (from_slice [5, 6]) 0 1 7) 1).2 ≠ [⟨0, 0, 7⟩, ⟨1, 1, 7⟩] := by
  decide

/-- **C4.** Assign coalescing fails: after the in-domain sequence
`from_slice([1,2,3]); merge(0,2,4); merge(1,2,5)` the state is
`[⟨0,1,4⟩, ⟨1,2,5⟩]`; the run `⟨1,2,5⟩` required by the claim exists, but the
other run `⟨0,1,4⟩` intersects the assigned span `[1,2]` at index 1. -/
theorem merge_leaves_intersecting_run :
    merge (merge (from_slice [1, 2, 3]) 0 2 4) 1 2 5 = [⟨0, 1, 4⟩, ⟨1, 2, 5⟩] ∧
    ((merge (merge (from_slice [1, 2, 3]) 0 2 4) 1 2 5).getD 0 default).contains 1 = true := by
  decide

/-- **C5.** Coverage fails: after the in-domain sequence
`from_slice([1,2,3]); merge(0,1,4); merge(0,0,5)` the state is
`[⟨0,0,5⟩, ⟨2,2,3⟩]` and no run contains index `1 ∈ [0,3)` — `merge` splits at
`right` instead of establishing a boundary after `right`, then truncates the
found run to `right`, dropping the tail `[right+1, old_right]`. -/
theorem merge_loses_coverage :
    gapTree = [⟨0, 0, 5⟩, ⟨2, 2, 3⟩] ∧ ∀ nd ∈ gapTree, nd.contains 1 = false := by
  decide

/-- **C6.** A well-formed input panics: on `gapTree` (reached from
`from_slice([1,2,3])` by in-domain merges), `nth(1,1)` evaluates
`self.0[0].right - max(1, self.0[0].left) = 0 - 1`, an unsigned underflow
(`none` in this model, a panic in a debug build). -/
theorem nth_underflow_panic : nth gapTree 1 1 = none := by
  decide

/-- **C7, counterexample.** On the reachable tree `merge([], 2, 3, 5) =
[⟨2,3,5⟩]`, the call `add(0,3,1)` satisfies the claim's premise (no run
reaches `left = 0`) but is not a no-op: the initial `split_inner(right)`
splits the run `[2,3]` before the `left` lookup fails. -/
theorem add_before_all_runs_mutates :
    (∀ nd ∈ merge ([] : ChthollyTree) 2 3 5, 0 < nd.left) ∧
    add (merge ([] : ChthollyTree) 2 3 5) 0 3 1 ≠ merge ([] : ChthollyTree) 2 3 5 := by
  decide

/-! ## Claim theorems (general statements about sorted trees) -/

/-- **C7, amended.** On a sorted tree, when `left` precedes the left endpoint
of every run, `add(left, right, delta)` changes no run's value: the only
possible mutation is the boundary split performed by the initial
`split_inner(right)`, and the final state is exactly the state after that
split (so the call is a complete no-op exactly when `split_inner(right)`
makes no structural change).  No sortedness hypothesis is needed. -/
theorem add_no_run_at_left {t : ChthollyTree} {l r d : Nat}
    (hall : ∀ nd ∈ t, l < nd.left) : add t l r d = (split_inner t r).2 := by
  have hall1 : ∀ nd ∈ (split_inner t r).2, l < nd.left := by
    by_cases hc : 0 < countLe t r
    · have hlr : l < r := by
        obtain ⟨a, ha, hp⟩ := List.countP_pos.mp hc
        have h1 : a.left ≤ r := by simpa using hp
        have h2 := hall a ha
        omega
      intro nd hnd
      rcases left_mem_split_inner hnd with h | ⟨nd0, hnd0, heq⟩
      · omega
      · have := hall nd0 hnd0
        omega
    · have hgt : ∀ nd ∈ t, r < nd.left := by
        intro a ha
        have hz : countLe t r = 0 := by omega
        have := List.countP_eq_zero.mp hz a ha
        simp only [decide_eq_true_eq] at this
        omega
      rw [split_inner_of_locate_none (locate_none_of_all_gt hgt)]
      exact hall
  have hnone : locate (split_inner t r).2 l = none := locate_none_of_all_gt hall1
  rw [add, split_inner_of_locate_none hnone]

/-- Witness for `add_no_run_at_left`: on `laterRun = [⟨2,3,5⟩]` with
`left = 0 < 2`, the hypotheses hold and `add(0,3,1)` equals the state after
`split_inner(3)` (namely `[⟨2,3,5⟩, ⟨3,3,5⟩]`). -/
theorem add_no_run_at_left_witness :
    (∀ nd ∈ laterRun, 0 < nd.left) ∧
    add laterRun 0 3 1 = (split_inner laterRun 3).2 :=
  ⟨by decide, add_no_run_at_left (by decide)⟩

/-- **C9.** On a sorted tree having at least one run with left endpoint at
most `l`, `nth(l, 0)` returns `Some` of the value of the run with the
greatest left endpoint `≤ l` — the `x = 0` short-circuit performs no
containment check, so this holds even when `l` is strictly beyond that run's
right endpoint (no `l ≤ right` hypothesis appears below). -/
theorem nth_zero_returns_candidate_value {t : ChthollyTree} {l : Nat}
    (hs : SortedLefts t) (hex : ∃ nd ∈ t, nd.left ≤ l) :
    ∃ i : Fin t.length, (t.get i).left ≤ l ∧
      (∀ j : Fin t.length, (t.get j).left ≤ l → (t.get j).left ≤ (t.get i).left) ∧
      nth t l 0 = some (some (t.get i).value) := by
  have hc : 0 < countLe t l := by
    rw [countLe, List.countP_pos]
    obtain ⟨nd, hnd, hle⟩ := hex
    exact ⟨nd, hnd, by simpa using hle⟩
  have hclen := countLe_le_length t l
  have hlt : countLe t l - 1 < t.length := by omega
  have hb := sortedLefts_le_iff hs l
  refine ⟨⟨countLe t l - 1, hlt⟩, (hb _ hlt).mpr (by omega), ?_, ?_⟩
  · intro j hj
    have hjc : j.val < countLe t l := (hb j.val j.isLt).mp hj
    rcases Nat.lt_or_ge j.val (countLe t l - 1) with hlt' | hge
    · exact le_of_lt (List.pairwise_iff_get.mp hs j ⟨countLe t l - 1, hlt⟩ hlt')
    · have hje : j = ⟨countLe t l - 1, hlt⟩ := Fin.ext (by simp only [Fin.val_mk]; omega)
      rw [hje]
  · rw [nth, locate_of_countLe_pos hs hc]
    show nthGo (0 + 1) t l 0 (countLe t l - 1) = some (some (t.get ⟨countLe t l - 1, hlt⟩).value)
    rw [show (0 + 1 : Nat) = 1 from rfl]
    show (if (0 : Nat) = 0 then some (some ((t.getD (countLe t l - 1) default).value))
      else nthGo 0 t l 0 (countLe t l - 1)) = _
    rw [if_pos rfl, List.getD_eq_get _ _ hlt]

/-- Witness for `nth_zero_returns_candidate_value`: on `oneRun = [⟨0,0,5⟩]`
with `l = 7` (strictly beyond the run's right endpoint `0`), `nth(7, 0)`
still returns `Some 5`. -/
theorem nth_zero_returns_candidate_value_witness :
    SortedLefts oneRun ∧ (∃ nd ∈ oneRun, nd.left ≤ 7) ∧
    ∃ i : Fin oneRun.length, (oneRun.get i).left ≤ 7 ∧
      (∀ j : Fin oneRun.length, (oneRun.get j).left ≤ 7 →
        (oneRun.get j).left ≤ (oneRun.get i).left) ∧
      nth oneRun 7 0 = some (some (oneRun.get i).value) :=
  ⟨by decide, by decide, nth_zero_returns_candidate_value (by decide) (by decide)⟩

/-- **C10.** On a sorted tree, when the located candidate run (the run with
the greatest `left ≤ middle`, at position `countLe t m - 1`) has
`left ≠ middle` and `right < middle`, `split_inner(middle)` still mutates the
vector: it overwrites the candidate's `right` with `middle` (extending its
range) and inserts a node `⟨middle, old right, value⟩` right after it — a
node whose `right` is strictly below its `left`. -/
theorem split_inner_beyond_right {t : ChthollyTree} {m : Nat} (hs : SortedLefts t)
    (hc : 0 < countLe t m)
    (hne : (t.getD (countLe t m - 1) default).left ≠ m)
    (hlt : (t.getD (countLe t m - 1) default).right < m) :
    split_inner t m = (some (countLe t m - 1 + 1),
      setAt (insertAt t (countLe t m - 1 + 1)
          ⟨m, (t.getD (countLe t m - 1) default).right, (t.getD (countLe t m - 1) default).value⟩)
        (countLe t m - 1)
        ⟨(t.getD (countLe t m - 1) default).left, m, (t.getD (countLe t m - 1) default).value⟩) ∧
    (⟨m, (t.getD (countLe t m - 1) default).right,
        (t.getD (countLe t m - 1) default).value⟩ : ChthollyNode).right <
      (⟨m, (t.getD (countLe t m - 1) default).right,
        (t.getD (countLe t m - 1) default).value⟩ : ChthollyNode).left :=
  ⟨split_inner_of_left_ne (locate_of_countLe_pos hs hc) hne, hlt⟩

/-- Witness for `split_inner_beyond_right`: on `oneRun = [⟨0,0,5⟩]` with
`middle = 3` (the candidate `⟨0,0,5⟩` has `left ≠ 3` and `right = 0 < 3`),
the split yields `[⟨0,3,5⟩, ⟨3,0,5⟩]` — an extended run and an inverted one. -/
theorem split_inner_beyond_right_witness :
    SortedLefts oneRun ∧ 0 < countLe oneRun 3 ∧
    (oneRun.getD (countLe oneRun 3 - 1) default).left ≠ 3 ∧
    (oneRun.getD (countLe oneRun 3 - 1) default).right < 3 ∧
    (split_inner oneRun 3 = (some (countLe oneRun 3 - 1 + 1),
      setAt (insertAt oneRun (countLe oneRun 3 - 1 + 1)
          ⟨3, (oneRun.getD (countLe oneRun 3 - 1) default).right,
            (oneRun.getD (countLe oneRun 3 - 1) default).value⟩)
        (countLe oneRun 3 - 1)
        ⟨(oneRun.getD (countLe oneRun 3 - 1) default).left, 3,
          (oneRun.getD (countLe oneRun 3 - 1) default).value⟩) ∧
    (⟨3, (oneRun.getD (countLe oneRun 3 - 1) default).right,
        (oneRun.getD (countLe oneRun 3 - 1) default).value⟩ : ChthollyNode).right <
      (⟨3, (oneRun.getD (countLe oneRun 3 - 1) default).right,
        (oneRun.getD (countLe oneRun 3 - 1) default).value⟩ : ChthollyNode).left) :=
  ⟨by decide, by decide, by decide, by decide,
    split_inner_beyond_right (by decide) (by decide) (by decide) (by decide)⟩

/-- **C8.** On a sorted tree, `split` is idempotent on the tree state:
calling `split_inner(m)` twice in a row leaves the same vector as calling it
once — the second call either again finds no candidate, or finds a run
starting exactly at `m` and returns without structural change. -/
theorem split_inner_idem {t : ChthollyTree} {m : Nat} (hs : SortedLefts t) :
    (split_inner (split_inner t m).2 m).2 = (split_inner t m).2 := by
  by_cases hc : 0 < countLe t m
  · have hl := locate_of_countLe_pos hs hc
    have hclen := countLe_le_length t m
    have hlt : countLe t m - 1 < t.length := by omega
    have hca : countLe t m - 1 + 1 = countLe t m := by omega
    have hb := sortedLefts_le_iff hs m
    by_cases heq : (t.getD (countLe t m - 1) default).left = m
    · rw [split_inner_of_left_eq hl heq]
      show (split_inner t m).2 = t
      rw [split_inner_of_left_eq hl heq]
    · have hnd_le : (t.getD (countLe t m - 1) default).left ≤ m := by
        rw [List.getD_eq_get _ _ hlt]
        exact (hb _ hlt).mpr (by omega)
      have hA : (t.getD (countLe t m - 1) default).left < m := by omega
      have hB : ∀ x ∈ t.drop (countLe t m), m < x.left := by
        intro x hx
        obtain ⟨j, hget⟩ := List.mem_iff_get.mp hx
        have hjlen : countLe t m + j.val < t.length := by
          have hj := j.isLt
          have hj2 : (List.drop (countLe t m) t).length = t.length - countLe t m :=
            List.length_drop _ _
          omega
        have hx2 : t.get ⟨countLe t m + j.val, hjlen⟩ = x := by
          rw [List.get_drop]
          exact hget
        have hbr := hb _ hjlen
        rw [hx2] at hbr
        by_cases hxm : x.left ≤ m
        · have := hbr.mp hxm
          omega
        · omega
      have hlen_take : (t.take (countLe t m - 1)).length = countLe t m - 1 := by
        rw [List.length_take]
        exact Nat.min_eq_left (by omega)
      have htd : t.take (countLe t m - 1) ++
          (t.getD (countLe t m - 1) default) :: t.drop (countLe t m) = t := by
        conv_rhs => rw [← List.take_append_drop (countLe t m - 1) t]
        rw [drop_eq_getD_cons hlt default, hca]
      have hdec : (split_inner t m).2 =
          setAt (insertAt t (countLe t m - 1 + 1)
              ⟨m, (t.getD (countLe t m - 1) default).right,
                (t.getD (countLe t m - 1) default).value⟩)
            (countLe t m - 1)
            ⟨(t.getD (countLe t m - 1) default).left, m,
              (t.getD (countLe t m - 1) default).value⟩ := by
        rw [split_inner_of_left_ne hl heq]
      have hform : setAt (insertAt t (countLe t m - 1 + 1)
              ⟨m, (t.getD (countLe t m - 1) default).right,
                (t.getD (countLe t m - 1) default).value⟩)
            (countLe t m - 1)
            ⟨(t.getD (countLe t m - 1) default).left, m,
              (t.getD (countLe t m - 1) default).value⟩ =
          t.take (countLe t m - 1) ++
            ⟨(t.getD (countLe t m - 1) default).left, m,
              (t.getD (countLe t m - 1) default).value⟩ ::
            ⟨m, (t.getD (countLe t m - 1) default).right,
              (t.getD (countLe t m - 1) default).value⟩ ::
            t.drop (countLe t m) := by
        rw [insertAt_eq_take_drop _ _ _ (by omega), take_succ_getD hlt default, hca,
          List.append_assoc, List.singleton_append,
          setAt_append_right _ _ _ _ (le_of_eq hlen_take), hlen_take, Nat.sub_self]
        rfl
      have hstate := hdec.trans hform
      rw [hstate]
      refine sorted_mid_insert_fix ?_ hA hB
      rw [htd]
      exact hs
  · have hz : ∀ nd ∈ t, m < nd.left := by
      intro a ha
      have h0 : countLe t m = 0 := by omega
      have := List.countP_eq_zero.mp h0 a ha
      simp only [decide_eq_true_eq] at this
      omega
    have hnone := locate_none_of_all_gt hz
    rw [split_inner_of_locate_none hnone]
    show (split_inner t m).2 = t
    rw [split_inner_of_locate_none hnone]

/-- Witness for `split_inner_idem`: splitting `wideRun = [⟨0,2,5⟩]` at 1
twice gives the same state as splitting once. -/
theorem split_inner_idem_witness :
    SortedLefts wideRun ∧
    (split_inner (split_inner wideRun 1).2 1).2 = (split_inner wideRun 1).2 :=
  ⟨by decide, split_inner_idem (by decide)⟩

end Chtholly
